import Mathlib

/-!
Verification of the election-resolution algorithms in `plurality_v_rcv.py`.

The source operates on elections given as `list of list of int`: each vote is
a ranking of candidates, most-preferred first.  We embed votes as `List Nat`
and an election as `List (List Nat)` (candidates are opaque identifiers; the
reference use case draws them from `range`).

Modelling conventions, each justified against the source:

* A Python `Counter` built from a generator is determined by the list of
  generated elements: `Counter[x]` is the count of `x` in that list, and the
  keys of the `Counter` enumerate in first-occurrence (insertion) order,
  which `insertionOrder` computes.
* `Counter.most_common(1)[0]` goes through `heapq.nlargest(1, items, key)`,
  which is `max(items, key)` and therefore returns the first-inserted key of
  maximal count; `mostCommonFst` models this.
* `frozenset` is modelled as a duplicate-free list.  The algorithms use it
  only through membership, size, and (erroneously) indexing, so the
  particular enumeration order is irrelevant.
* The `while` loops of `irv` and `rcv` are modelled by structural recursion
  on a fuel argument, with `none` signalling fuel exhaustion.  The wrappers
  pass fuel equal to the size of the initial active set; the termination
  theorems below prove that this fuel is always sufficient, because each
  round strictly shrinks the active set.
* Fallible Python operations are modelled with `Except String`:
  `frozenset` indexing (`TypeError`), `vote[0]` on an empty vote
  (`IndexError`), `max` of an empty sequence (`ValueError`),
  `most_common(1)[0]` of an empty counter (`IndexError`), and
  `operator.indexOf` on a missing element (`ValueError`).
* In the source, a vote none of whose entries is active would make the
  tally generator raise; the total function `tops` simply skips such a
  vote.  All theorems about the elimination loop therefore carry the
  validity hypothesis `validRunF` (no vote is ever exhausted during the
  run), under which the model agrees with the source.
-/

/-- First-occurrence order of the distinct elements of `l`, with elements of
`seen` suppressed: the key enumeration order of a Python `Counter`/`dict`
built by inserting the elements of `l` in order. -/
def insertionOrderAux (seen : List Nat) : List Nat → List Nat
  | [] => []
  | a :: l =>
    if a ∈ seen then insertionOrderAux seen l
    else a :: insertionOrderAux (a :: seen) l

/-- The distinct elements of `l` in first-occurrence order. -/
def insertionOrder (l : List Nat) : List Nat :=
  insertionOrderAux [] l

/-- Maximum of a list of naturals, `0` on the empty list; on a non-empty
list this is Python `max`. -/
def natMax : List Nat → Nat
  | [] => 0
  | a :: l => max a (natMax l)

/-- Minimum of a non-empty list of naturals (`0` on the empty list, a case
the call sites never reach); on a non-empty list this is Python `min`. -/
def natMin : List Nat → Nat
  | [] => 0
  | [a] => a
  | a :: b :: l => min a (natMin (b :: l))

/-- `next(v for v in vote if v in candidates)`: the first entry of `vote`
that is still active, `none` when the vote is exhausted (in which case the
source generator would raise). -/
def firstActive (active : List Nat) (vote : List Nat) : Option Nat :=
  vote.find? (fun c => decide (c ∈ active))

/-- The list of current top active choices of the votes, one entry per
non-exhausted vote: the multiset underlying the per-round
`Counter(next(v for v in vote if v in candidates) for vote in election)`. -/
def tops (election : List (List Nat)) (active : List Nat) : List Nat :=
  election.filterMap (firstActive active)

/-- `scores[c]`: how many votes currently place `c` on top.  A `Counter`
defaults to `0` for keys that were never inserted, and `List.count` does
the same for absent elements. -/
def score (election : List (List Nat)) (active : List Nat) (c : Nat) : Nat :=
  (tops election active).count c

/-- `min(scores[c] for c in candidates)`, the round's elimination
threshold. -/
def losingScore (election : List (List Nat)) (active : List Nat) : Nat :=
  natMin (active.map (score election active))

/-- `[c for c in candidates if scores[c] > losing_score]`: one elimination
round. -/
def eliminate (election : List (List Nat)) (active : List Nat) : List Nat :=
  active.filter (fun c => decide (losingScore election active < score election active c))

/-- `scores.most_common(1)[0]` where `scores = Counter(l)`: the
first-inserted element of maximal count, with its count; `none` when the
counter is empty (the source would raise `IndexError`). -/
def mostCommonFst (l : List Nat) : Option (Nat × Nat) :=
  match (insertionOrder l).find?
      (fun c => decide (l.count c = natMax ((insertionOrder l).map (fun d => l.count d)))) with
  | some c => some (c, l.count c)
  | none => none

/-- `candidates_for_election`: the frozenset of all candidates appearing in
any vote, as a duplicate-free list. -/
def candidates_for_election (election : List (List Nat)) : List Nat :=
  insertionOrder election.flatten

/-- `[vote[0] for vote in election]`, evaluated left to right; `none` models
the `IndexError` raised by the first empty vote. -/
def firstChoices : List (List Nat) → Option (List Nat)
  | [] => some []
  | [] :: _ => none
  | (c :: _) :: rest => (firstChoices rest).map (fun l => c :: l)

/-- `winning_score = max(counts.values())` for the plurality tally: the
values of the counter enumerate in key insertion order, which is irrelevant
to their maximum. -/
def pluralityMax (firsts : List Nat) : Nat :=
  natMax ((insertionOrder firsts).map (fun d => firsts.count d))

/-- `winners = [c for c, v in counts.items() if v == winning_score]`,
in counter key order. -/
def pluralityWinners (firsts : List Nat) : List Nat :=
  (insertionOrder firsts).filter (fun c => decide (firsts.count c = pluralityMax firsts))

/-- The `plurality` resolver. -/
def plurality (election : List (List Nat)) : Except String (Option Nat) :=
  match firstChoices election with
  | none => Except.error "IndexError: list index out of range"
  | some [] => Except.error "ValueError: max is given an empty sequence"
  | some (c :: rest) =>
    if 1 < (pluralityWinners (c :: rest)).length then Except.ok none
    else Except.ok (pluralityWinners (c :: rest)).head?

/-- The `while len(candidates) > 1` elimination loop shared by `irv` and
`rcv`, with explicit fuel; `none` means the fuel ran out with the loop still
unfinished (provably unreachable when the fuel is at least the size of the
active set). -/
def elimLoopF (election : List (List Nat)) : Nat → List Nat → Option (List Nat)
  | 0, active => if 1 < active.length then none else some active
  | fuel + 1, active =>
    if 1 < active.length then elimLoopF election fuel (eliminate election active)
    else some active

/-- The `irv` resolver.  When the initial candidate frozenset already has
size at most one, the loop body never runs, `candidates` is still a
`frozenset`, and `candidates[0]` raises `TypeError` in the source. -/
def irv (election : List (List Nat)) : Except String (Option Nat) :=
  let candidates := candidates_for_election election
  if 1 < candidates.length then
    match elimLoopF election candidates.length candidates with
    | some final => Except.ok final.head?
    | none => Except.error "fuel exhausted"
  else if candidates.isEmpty then Except.ok none
  else Except.error "TypeError: frozenset object is not subscriptable"

/-- `fifty_percent_votes = (num_voters // 2) + (0 if num_voters % 2 == 0 else 1)`. -/
def majorityThreshold (numVoters : Nat) : Nat :=
  numVoters / 2 + (if numVoters % 2 = 0 then 0 else 1)

/-- The `rcv` loop with explicit fuel: like `elimLoopF`, but each round
first compares the score of `scores.most_common(1)[0]` with the majority
threshold and returns that candidate on success.  `none` is fuel
exhaustion; `some r` is the returned value, where `r` itself distinguishes
normal returns from raised exceptions. -/
def rcvLoopF (election : List (List Nat)) (threshold : Nat) :
    Nat → List Nat → Option (Except String (Option Nat))
  | 0, active =>
    if 1 < active.length then none else some (Except.ok active.head?)
  | fuel + 1, active =>
    if 1 < active.length then
      match mostCommonFst (tops election active) with
      | none => some (Except.error "IndexError: list index out of range")
      | some (c, cnt) =>
        if threshold ≤ cnt then some (Except.ok (some c))
        else rcvLoopF election threshold fuel (eliminate election active)
    else some (Except.ok active.head?)

/-- The `rcv` resolver; the degenerate single-candidate case raises exactly
as in `irv`. -/
def rcv (election : List (List Nat)) : Except String (Option Nat) :=
  let candidates := candidates_for_election election
  let threshold := majorityThreshold election.length
  if 1 < candidates.length then
    match rcvLoopF election threshold candidates.length candidates with
    | some r => r
    | none => Except.error "fuel exhausted"
  else if candidates.isEmpty then Except.ok none
  else Except.error "TypeError: frozenset object is not subscriptable"

/-- Instrumented form of the `rcv` loop that reports an early majority exit:
`some (w, exitSet)` when some round returns winner `w` through the majority
check, recording the active set of that round; `none` when the loop instead
runs to completion (or runs out of fuel, or the counter is empty). -/
def rcvEarlyWinnerF (election : List (List Nat)) (threshold : Nat) :
    Nat → List Nat → Option (Nat × List Nat)
  | 0, _ => none
  | fuel + 1, active =>
    if 1 < active.length then
      match mostCommonFst (tops election active) with
      | none => none
      | some (c, cnt) =>
        if threshold ≤ cnt then some (c, active)
        else rcvEarlyWinnerF election threshold fuel (eliminate election active)
    else none

/-- Validity of an election along the elimination run from `active`: in
every round that tallies (active set larger than one), every vote still
names an active candidate.  This is the spec's precondition that no vote is
exhausted while candidates remain. -/
def validRunF (election : List (List Nat)) : Nat → List Nat → Bool
  | 0, active => decide (active.length ≤ 1)
  | fuel + 1, active =>
    if 1 < active.length then
      election.all (fun vote => (firstActive active vote).isSome) &&
        validRunF election fuel (eliminate election active)
    else true

/-- Every elimination round of the run from `active` removes exactly one
candidate. -/
def singleElimF (election : List (List Nat)) : Nat → List Nat → Bool
  | 0, active => decide (active.length ≤ 1)
  | fuel + 1, active =>
    if 1 < active.length then
      decide ((eliminate election active).length + 1 = active.length) &&
        singleElimF election fuel (eliminate election active)
    else true

/-- `choice1 if indexOf(vote, choice1) < indexOf(vote, choice2) else choice2`,
with `operator.indexOf` raising `ValueError` on a missing element;
`choice1` is looked up first, exactly as the source expression evaluates. -/
def votePref (choice1 choice2 : Nat) (vote : List Nat) : Except String Nat :=
  match vote.findIdx? (fun x => decide (x = choice1)),
      vote.findIdx? (fun x => decide (x = choice2)) with
  | some i1, some i2 => Except.ok (if i1 < i2 then choice1 else choice2)
  | none, _ => Except.error "ValueError: sequence index: x not in sequence"
  | _, none => Except.error "ValueError: sequence index: x not in sequence"

/-- `majority_preferences`: the returned `Counter` is determined by the list
of per-vote preferred candidates, which this computes; the generator is
consumed left to right, the first missing lookup raising. -/
def majority_preferences (election : List (List Nat)) (choice1 choice2 : Nat) :
    Except String (List Nat) :=
  match election with
  | [] => Except.ok []
  | vote :: rest =>
    match votePref choice1 choice2 vote, majority_preferences rest choice1 choice2 with
    | Except.ok p, Except.ok l => Except.ok (p :: l)
    | Except.error e, _ => Except.error e
    | Except.ok _, Except.error e => Except.error e

/-! ### Basic lemmas about the combinatorial helpers -/

theorem mem_insertionOrderAux {x : Nat} : ∀ {seen l : List Nat},
    x ∈ insertionOrderAux seen l ↔ x ∈ l ∧ x ∉ seen := by
  intro seen l
  induction l generalizing seen with
  | nil => simp [insertionOrderAux]
  | cons a l ih =>
    simp only [insertionOrderAux]
    by_cases ha : a ∈ seen
    · simp only [if_pos ha, ih, List.mem_cons]
      constructor
      · rintro ⟨hx, hns⟩; exact ⟨Or.inr hx, hns⟩
      · rintro ⟨hx | hx, hns⟩
        · exact absurd (hx ▸ ha) hns
        · exact ⟨hx, hns⟩
    · simp only [if_neg ha, List.mem_cons, ih, List.mem_cons]
      constructor
      · rintro (rfl | ⟨hx, hns⟩)
        · exact ⟨Or.inl rfl, ha⟩
        · exact ⟨Or.inr hx, fun h => hns (Or.inr h)⟩
      · rintro ⟨rfl | hx, hns⟩
        · exact Or.inl rfl
        · by_cases hxa : x = a
          · exact Or.inl hxa
          · exact Or.inr ⟨hx, fun h => h.elim hxa hns⟩

theorem nodup_insertionOrderAux : ∀ (seen l : List Nat),
    (insertionOrderAux seen l).Nodup := by
  intro seen l
  induction l generalizing seen with
  | nil => simp [insertionOrderAux]
  | cons a l ih =>
    simp only [insertionOrderAux]
    by_cases ha : a ∈ seen
    · simpa [ha] using ih seen
    · simp only [if_neg ha, List.nodup_cons]
      refine ⟨fun hmem => ?_, ih (a :: seen)⟩
      exact (mem_insertionOrderAux.mp hmem).2 (List.mem_cons_self a seen)

theorem mem_insertionOrder {x : Nat} {l : List Nat} :
    x ∈ insertionOrder l ↔ x ∈ l := by
  simp [insertionOrder, mem_insertionOrderAux]

theorem nodup_insertionOrder (l : List Nat) : (insertionOrder l).Nodup :=
  nodup_insertionOrderAux [] l

theorem le_natMax {l : List Nat} {x : Nat} (hx : x ∈ l) : x ≤ natMax l := by
  induction l with
  | nil => cases hx
  | cons a l ih =>
    rcases List.mem_cons.mp hx with rfl | hx
    · exact le_max_left _ _
    · exact le_trans (ih hx) (le_max_right _ _)

theorem natMax_mem : ∀ {l : List Nat}, l ≠ [] → natMax l ∈ l := by
  intro l hl
  induction l with
  | nil => exact absurd rfl hl
  | cons a l ih =>
    rcases List.eq_nil_or_concat l with rfl | _
    · simp [natMax]
    · by_cases h : l = []
      · simp [h, natMax]
      · rcases max_choice a (natMax l) with hm | hm
        · simp [natMax, hm]
        · simp only [natMax, hm, List.mem_cons]
          exact Or.inr (ih h)

theorem natMin_mem : ∀ (a : Nat) (l : List Nat), natMin (a :: l) ∈ a :: l := by
  intro a l
  induction l generalizing a with
  | nil => simp [natMin]
  | cons b l ih =>
    simp only [natMin]
    rcases min_choice a (natMin (b :: l)) with hm | hm
    · simp [hm]
    · simp only [hm, List.mem_cons]
      rcases List.mem_cons.mp (ih b) with h | h
      · exact Or.inr (Or.inl h)
      · exact Or.inr (Or.inr h)

theorem natMin_le : ∀ (a : Nat) (l : List Nat) (x : Nat),
    x ∈ a :: l → natMin (a :: l) ≤ x := by
  intro a l
  induction l generalizing a with
  | nil =>
    intro x hx
    rcases List.mem_cons.mp hx with rfl | hx
    · simp [natMin]
    · cases hx
  | cons b l ih =>
    intro x hx
    simp only [natMin]
    rcases List.mem_cons.mp hx with rfl | hx
    · exact min_le_left _ _
    · exact le_trans (min_le_right _ _) (ih b x hx)

theorem filter_length_lt_of_mem {l : List Nat} {p : Nat → Bool} {x : Nat}
    (hx : x ∈ l) (hpx : p x = false) : (l.filter p).length < l.length := by
  induction l with
  | nil => cases hx
  | cons a l ih =>
    rcases List.mem_cons.mp hx with rfl | hx
    · simp only [List.filter_cons, hpx, Bool.false_eq_true, if_false]
      exact Nat.lt_succ_of_le (List.length_filter_le p l)
    · cases hpa : p a with
      | true => simpa [List.filter_cons, hpa] using Nat.succ_lt_succ (ih hx)
      | false =>
        simp only [List.filter_cons, hpa, Bool.false_eq_true, if_false]
        exact Nat.lt_succ_of_lt (ih hx)

theorem count_pair_le_length {l : List Nat} {a b : Nat} (hab : a ≠ b) :
    l.count a + l.count b ≤ l.length := by
  induction l with
  | nil => simp
  | cons c l ih =>
    simp only [List.count_cons, List.length_cons, beq_iff_eq]
    by_cases hca : c = a
    · have hcb : ¬ c = b := fun h => hab (hca.symm.trans h)
      simp only [if_pos hca, if_neg hcb]
      omega
    · by_cases hcb : c = b
      · simp only [if_pos hcb, if_neg hca]
        omega
      · simp only [if_neg hca, if_neg hcb]
        omega

theorem two_le_length_of_mem {l : List Nat} {x y : Nat}
    (hx : x ∈ l) (hy : y ∈ l) (hxy : x ≠ y) : 2 ≤ l.length := by
  match l with
  | [] => cases hx
  | [a] =>
    rcases List.mem_singleton.mp hx with rfl
    rcases List.mem_singleton.mp hy with rfl
    exact absurd rfl hxy
  | a :: b :: l => simp [Nat.succ_le_succ, Nat.le_add_left]

theorem exists_other_mem {l : List Nat} (hlen : 1 < l.length)
    (hnd : l.Nodup) {w : Nat} (hw : w ∈ l) : ∃ c ∈ l, c ≠ w := by
  match l, hlen with
  | a :: b :: l, _ =>
    have hab : a ≠ b := by
      intro h
      exact (List.nodup_cons.mp hnd).1 (h ▸ List.mem_cons_self b l)
    by_cases hwa : w = a
    · exact ⟨b, List.mem_cons_of_mem a (List.mem_cons_self b l), by
        intro h; exact hab (hwa ▸ h.symm)⟩
    · exact ⟨a, List.mem_cons_self a (b :: l), fun h => hwa h.symm⟩

/-! ### Lemmas about single elimination rounds -/

theorem losingScore_le (election : List (List Nat)) {active : List Nat} {c : Nat}
    (hc : c ∈ active) : losingScore election active ≤ score election active c := by
  cases active with
  | nil => cases hc
  | cons a rest =>
    have hmem : score election (a :: rest) c ∈
        score election (a :: rest) a :: rest.map (score election (a :: rest)) := by
      simpa using List.mem_map_of_mem (score election (a :: rest)) hc
    simpa [losingScore] using
      natMin_le (score election (a :: rest) a) (rest.map (score election (a :: rest)))
        (score election (a :: rest) c) hmem

theorem losingScore_attained (election : List (List Nat)) {active : List Nat}
    (h : active ≠ []) :
    ∃ c ∈ active, score election active c = losingScore election active := by
  cases active with
  | nil => exact absurd rfl h
  | cons a rest =>
    have hmem : losingScore election (a :: rest) ∈
        (a :: rest).map (score election (a :: rest)) := by
      simpa [losingScore] using
        natMin_mem (score election (a :: rest) a) (rest.map (score election (a :: rest)))
    obtain ⟨c, hc, hsc⟩ := List.mem_map.mp hmem
    exact ⟨c, hc, hsc⟩

theorem mem_eliminate {election : List (List Nat)} {active : List Nat} {c : Nat} :
    c ∈ eliminate election active ↔
      c ∈ active ∧ losingScore election active < score election active c := by
  simp [eliminate, List.mem_filter]

theorem eliminate_subset {election : List (List Nat)} {active : List Nat} :
    eliminate election active ⊆ active := by
  intro c hc
  exact (mem_eliminate.mp hc).1

theorem eliminate_nodup {election : List (List Nat)} {active : List Nat}
    (h : active.Nodup) : (eliminate election active).Nodup :=
  List.Nodup.filter _ h

theorem eliminate_length_lt (election : List (List Nat)) {active : List Nat}
    (h : active ≠ []) : (eliminate election active).length < active.length := by
  obtain ⟨c, hc, hsc⟩ := losingScore_attained election h
  have hp : decide (losingScore election active < score election active c) = false := by
    simp [hsc]
  exact filter_length_lt_of_mem hc hp

theorem firstActive_mono {A1 A2 : List Nat} (hsub : A2 ⊆ A1) {w : Nat} (hw : w ∈ A2) :
    ∀ {v : List Nat}, firstActive A1 v = some w → firstActive A2 v = some w := by
  intro v
  induction v with
  | nil => intro h; simp [firstActive] at h
  | cons x v ih =>
    intro h
    by_cases hx : x ∈ A1
    · have hx1 : firstActive A1 (x :: v) = some x := by
        simp only [firstActive]
        exact List.find?_cons_of_pos v (by simpa using hx)
      rw [hx1] at h
      obtain rfl := Option.some.inj h
      simp only [firstActive]
      exact List.find?_cons_of_pos v (by simpa using hw)
    · have hx2 : x ∉ A2 := fun hmem => hx (hsub hmem)
      have h1 : firstActive A1 (x :: v) = firstActive A1 v := by
        simp only [firstActive]
        exact List.find?_cons_of_neg v (by simpa using hx)
      have h2 : firstActive A2 (x :: v) = firstActive A2 v := by
        simp only [firstActive]
        exact List.find?_cons_of_neg v (by simpa using hx2)
      rw [h2]
      exact ih (h1 ▸ h)

theorem score_mono {A1 A2 : List Nat} (hsub : A2 ⊆ A1) {w : Nat} (hw : w ∈ A2) :
    ∀ election, score election A1 w ≤ score election A2 w := by
  intro election
  induction election with
  | nil => simp [score, tops]
  | cons v rest ih =>
    simp only [score, tops, List.filterMap_cons] at ih ⊢
    cases h1 : firstActive A1 v with
    | none =>
      cases h2 : firstActive A2 v with
      | none => exact ih
      | some d =>
        refine le_trans ih ?_
        by_cases hwd : w = d
        · subst hwd; simp [List.count_cons_self]
        · simp [List.count_cons_of_ne hwd]
    | some c =>
      by_cases hcw : c = w
      · subst hcw
        rw [firstActive_mono hsub hw h1]
        simp only [List.count_cons_self]
        omega
      · cases h2 : firstActive A2 v with
        | none =>
          rw [List.count_cons_of_ne (fun h => hcw h.symm)]
          exact ih
        | some d =>
          rw [List.count_cons_of_ne (fun h => hcw h.symm)]
          refine le_trans ih ?_
          by_cases hwd : w = d
          · subst hwd; simp [List.count_cons_self]
          · simp [List.count_cons_of_ne hwd]

theorem tops_length_of_valid {election : List (List Nat)} {active : List Nat}
    (h : ∀ v ∈ election, (firstActive active v).isSome) :
    (tops election active).length = election.length := by
  induction election with
  | nil => simp [tops]
  | cons v rest ih =>
    have hv := h v (List.mem_cons_self v rest)
    obtain ⟨c, hc⟩ := Option.isSome_iff_exists.mp hv
    simp only [tops, List.filterMap_cons, hc, List.length_cons]
    have hrest := ih (fun u hu => h u (List.mem_cons_of_mem v hu))
    simp only [tops] at hrest
    omega

theorem tops_subset_active {election : List (List Nat)} {active : List Nat} {c : Nat}
    (h : c ∈ tops election active) : c ∈ active := by
  obtain ⟨v, _, hv⟩ := List.mem_filterMap.mp h
  have := List.find?_some hv
  simpa using this

theorem mostCommonFst_spec {l : List Nat} {c cnt : Nat}
    (h : mostCommonFst l = some (c, cnt)) :
    c ∈ l ∧ cnt = l.count c ∧ ∀ d ∈ l, l.count d ≤ cnt := by
  unfold mostCommonFst at h
  cases hfind : (insertionOrder l).find?
      (fun c => decide (l.count c = natMax ((insertionOrder l).map (fun d => l.count d)))) with
  | none => rw [hfind] at h; cases h
  | some x =>
    rw [hfind] at h
    have hpair := Option.some.inj h
    have hxc : x = c := congrArg Prod.fst hpair
    have hcnt : l.count x = cnt := congrArg Prod.snd hpair
    subst hxc
    subst hcnt
    have hmem : x ∈ l := mem_insertionOrder.mp (List.mem_of_find?_eq_some hfind)
    have hmax : l.count x = natMax ((insertionOrder l).map (fun d => l.count d)) := by
      have := List.find?_some hfind
      simpa using this
    refine ⟨hmem, rfl, fun d hd => ?_⟩
    have hdmem : l.count d ∈ (insertionOrder l).map (fun d => l.count d) :=
      List.mem_map_of_mem _ (mem_insertionOrder.mpr hd)
    rw [hmax]
    exact le_natMax hdmem

/-! ### Lemmas about the elimination loops -/

theorem filter_length_partition (p : Nat → Bool) (l : List Nat) :
    (l.filter p).length + (l.filter (fun x => !(p x))).length = l.length := by
  induction l with
  | nil => simp
  | cons a l ih =>
    cases hpa : p a <;> simp [List.filter_cons, hpa] <;> omega

theorem elimLoopF_some {election : List (List Nat)} :
    ∀ (fuel : Nat) (A : List Nat), A.length ≤ fuel →
    ∃ r, elimLoopF election fuel A = some r := by
  intro fuel
  induction fuel with
  | zero =>
    intro A hA
    have : A.length = 0 := Nat.le_zero.mp hA
    simp [elimLoopF, this]
  | succ fuel ih =>
    intro A hA
    by_cases h : 1 < A.length
    · have hlt : (eliminate election A).length < A.length :=
        eliminate_length_lt election (by intro hnil; rw [hnil] at h; simp at h)
      obtain ⟨r, hr⟩ := ih (eliminate election A) (by omega)
      exact ⟨r, by simp [elimLoopF, if_pos h, hr]⟩
    · exact ⟨A, by simp [elimLoopF, if_neg h]⟩

theorem rcvLoopF_some {election : List (List Nat)} (th : Nat) :
    ∀ (fuel : Nat) (A : List Nat), A.length ≤ fuel →
    ∃ r, rcvLoopF election th fuel A = some r := by
  intro fuel
  induction fuel with
  | zero =>
    intro A hA
    have : A.length = 0 := Nat.le_zero.mp hA
    simp [rcvLoopF, this]
  | succ fuel ih =>
    intro A hA
    by_cases h : 1 < A.length
    · cases hmc : mostCommonFst (tops election A) with
      | none =>
        exact ⟨Except.error "IndexError: list index out of range", by
          simp [rcvLoopF, if_pos h, hmc]⟩
      | some p =>
        obtain ⟨c, cnt⟩ := p
        by_cases hth : th ≤ cnt
        · exact ⟨Except.ok (some c), by simp [rcvLoopF, if_pos h, hmc, if_pos hth]⟩
        · have hlt : (eliminate election A).length < A.length :=
            eliminate_length_lt election (by intro hnil; rw [hnil] at h; simp at h)
          obtain ⟨r, hr⟩ := ih (eliminate election A) (by omega)
          exact ⟨r, by simp [rcvLoopF, if_pos h, hmc, if_neg hth, hr]⟩
    · exact ⟨Except.ok A.head?, by simp [rcvLoopF, if_neg h]⟩

theorem singleElimF_fuel {election : List (List Nat)} :
    ∀ (f1 f2 : Nat) (A : List Nat), A.length ≤ f1 → A.length ≤ f2 →
    singleElimF election f1 A = singleElimF election f2 A := by
  intro f1
  induction f1 with
  | zero =>
    intro f2 A h1 h2
    have hA : A.length = 0 := Nat.le_zero.mp h1
    have hno : ¬ 1 < A.length := by omega
    cases f2 with
    | zero => rfl
    | succ k => simp [singleElimF, if_neg hno, hA]
  | succ f1 ih =>
    intro f2 A h1 h2
    by_cases h : 1 < A.length
    · cases f2 with
      | zero => omega
      | succ k =>
        have hlt : (eliminate election A).length < A.length :=
          eliminate_length_lt election (by intro hnil; rw [hnil] at h; simp at h)
        simp only [singleElimF, if_pos h]
        rw [ih k (eliminate election A) (by omega) (by omega)]
    · cases f2 with
      | zero =>
        have hA : A.length = 0 := Nat.le_zero.mp h2
        simp [singleElimF, if_neg h, hA]
      | succ k => simp [singleElimF, if_neg h]

theorem rcvEarlyWinnerF_active {election : List (List Nat)} {th fuel : Nat}
    {A : List Nat} {x : Nat × List Nat}
    (h : rcvEarlyWinnerF election th fuel A = some x) : 1 < A.length := by
  cases fuel with
  | zero => cases h
  | succ fuel =>
    by_cases hA : 1 < A.length
    · exact hA
    · simp [rcvEarlyWinnerF, if_neg hA] at h

theorem rcvEarly_rcvLoop (election : List (List Nat)) (th : Nat) :
    ∀ (fuel : Nat) (A : List Nat) {w : Nat} {B : List Nat},
    rcvEarlyWinnerF election th fuel A = some (w, B) →
    rcvLoopF election th fuel A = some (Except.ok (some w)) := by
  intro fuel
  induction fuel with
  | zero => intro A w B h; cases h
  | succ fuel ih =>
    intro A w B h
    by_cases hA : 1 < A.length
    · cases hmc : mostCommonFst (tops election A) with
      | none => simp [rcvEarlyWinnerF, if_pos hA, hmc] at h
      | some p =>
        obtain ⟨c, cnt⟩ := p
        by_cases hth : th ≤ cnt
        · simp only [rcvEarlyWinnerF, if_pos hA, hmc, if_pos hth] at h
          have hw : c = w := congrArg Prod.fst (Option.some.inj h)
          subst hw
          simp [rcvLoopF, if_pos hA, hmc, if_pos hth]
        · simp only [rcvEarlyWinnerF, if_pos hA, hmc, if_neg hth] at h
          simp only [rcvLoopF, if_pos hA, hmc, if_neg hth]
          exact ih (eliminate election A) h
    · simp [rcvEarlyWinnerF, if_neg hA] at h

theorem length_le_two_mul_majorityThreshold (n : Nat) :
    n ≤ 2 * majorityThreshold n := by
  by_cases h : n % 2 = 0 <;> simp [majorityThreshold, h] <;> omega

theorem rcvEarly_reach {election : List (List Nat)} {th : Nat} :
    ∀ (fuel : Nat) (A : List Nat), A.length ≤ fuel → A.Nodup →
    validRunF election fuel A = true →
    ∀ {w : Nat} {B : List Nat}, rcvEarlyWinnerF election th fuel A = some (w, B) →
    ∃ fuel2, B.length ≤ fuel2 ∧ B.Nodup ∧ validRunF election fuel2 B = true ∧
      1 < B.length ∧ elimLoopF election fuel A = elimLoopF election fuel2 B ∧
      ∃ cnt, mostCommonFst (tops election B) = some (w, cnt) ∧ th ≤ cnt := by
  intro fuel
  induction fuel with
  | zero => intro A _ _ _ w B h; cases h
  | succ fuel ih =>
    intro A hA hnd hval w B h
    by_cases hlen : 1 < A.length
    · cases hmc : mostCommonFst (tops election A) with
      | none => simp [rcvEarlyWinnerF, if_pos hlen, hmc] at h
      | some p =>
        obtain ⟨c, cnt⟩ := p
        by_cases hth : th ≤ cnt
        · simp only [rcvEarlyWinnerF, if_pos hlen, hmc, if_pos hth] at h
          have hw : c = w := congrArg Prod.fst (Option.some.inj h)
          have hB : A = B := congrArg Prod.snd (Option.some.inj h)
          subst hw
          subst hB
          exact ⟨fuel + 1, hA, hnd, hval, hlen, rfl, cnt, hmc, hth⟩
        · simp only [rcvEarlyWinnerF, if_pos hlen, hmc, if_neg hth] at h
          have hlt : (eliminate election A).length < A.length :=
            eliminate_length_lt election (by intro hnil; rw [hnil] at hlen; simp at hlen)
          have hval2 : validRunF election fuel (eliminate election A) = true := by
            simp only [validRunF, if_pos hlen, Bool.and_eq_true] at hval
            exact hval.2
          obtain ⟨fuel2, h1, h2, h3, h4, h5, hcnt⟩ :=
            ih (eliminate election A) (by omega) (eliminate_nodup hnd) hval2 h
          refine ⟨fuel2, h1, h2, h3, h4, ?_, hcnt⟩
          rw [← h5]
          simp [elimLoopF, if_pos hlen]
    · simp [rcvEarlyWinnerF, if_neg hlen] at h

theorem elimLoop_majority {election : List (List Nat)} {th : Nat}
    (hn : election.length ≤ 2 * th) :
    ∀ (fuel : Nat) (A : List Nat), A.length ≤ fuel → A.Nodup →
    validRunF election fuel A = true → singleElimF election fuel A = true →
    ∀ {w : Nat}, w ∈ A → th ≤ score election A w →
    elimLoopF election fuel A = some [w] := by
  intro fuel
  induction fuel with
  | zero =>
    intro A hA _ _ _ w hw _
    have h0 : A.length = 0 := Nat.le_zero.mp hA
    rw [List.length_eq_zero.mp h0] at hw
    cases hw
  | succ fuel ih =>
    intro A hA hnd hval hsingle w hw hscore
    by_cases hlen : 1 < A.length
    · have hne : A ≠ [] := by intro hnil; rw [hnil] at hlen; simp at hlen
      have hval1 : election.all (fun vote => (firstActive A vote).isSome) = true ∧
          validRunF election fuel (eliminate election A) = true := by
        simpa [validRunF, if_pos hlen, Bool.and_eq_true] using hval
      have hsingle1 : (eliminate election A).length + 1 = A.length ∧
          singleElimF election fuel (eliminate election A) = true := by
        simpa [singleElimF, if_pos hlen, Bool.and_eq_true] using hsingle
      have htlen : (tops election A).length = election.length :=
        tops_length_of_valid (fun v hv => by
          have := List.all_eq_true.mp hval1.1 v hv
          simpa using this)
      have hwsurv : w ∈ eliminate election A := by
        by_contra hwno
        have hwls : score election A w = losingScore election A := by
          have h1 := losingScore_le election hw
          have h2 : ¬ losingScore election A < score election A w := by
            intro hlt
            exact hwno (mem_eliminate.mpr ⟨hw, hlt⟩)
          omega
        obtain ⟨c, hc, hcw⟩ := exists_other_mem hlen hnd hw
        by_cases hsc : losingScore election A < score election A c
        · have h2 : th + 1 ≤ score election A c := by omega
          have h3 : score election A c + score election A w ≤ (tops election A).length :=
            count_pair_le_length hcw
          omega
        · have hpw : (decide (losingScore election A < score election A w)) = false := by
            simp [hwls]
          have hpc : (decide (losingScore election A < score election A c)) = false := by
            simpa using hsc
          have hwmem : w ∈ A.filter
              (fun x => !(decide (losingScore election A < score election A x))) := by
            rw [List.mem_filter]
            exact ⟨hw, by simp [hpw]⟩
          have hcmem : c ∈ A.filter
              (fun x => !(decide (losingScore election A < score election A x))) := by
            rw [List.mem_filter]
            exact ⟨hc, by simp [hpc]⟩
          have h2le : 2 ≤ (A.filter
              (fun x => !(decide (losingScore election A < score election A x)))).length :=
            two_le_length_of_mem hcmem hwmem hcw
          have hpart : (eliminate election A).length + (A.filter
              (fun x => !(decide (losingScore election A < score election A x)))).length
              = A.length :=
            filter_length_partition _ A
          omega
      have hscore2 : th ≤ score election (eliminate election A) w :=
        le_trans hscore (score_mono eliminate_subset hwsurv election)
      have hrec := ih (eliminate election A)
        (by have := eliminate_length_lt election hne; omega)
        (eliminate_nodup hnd) hval1.2 hsingle1.2 hwsurv hscore2
      simpa [elimLoopF, if_pos hlen] using hrec
    · have hAw : A = [w] := by
        cases A with
        | nil => cases hw
        | cons a t =>
          cases t with
          | nil =>
            obtain rfl := List.mem_singleton.mp hw
            rfl
          | cons b t2 => simp [List.length_cons] at hlen
      rw [hAw]
      simp [elimLoopF]

/-! ### Lemmas about the plurality tally -/

theorem firstChoices_length : ∀ {election : List (List Nat)} {firsts : List Nat},
    firstChoices election = some firsts → firsts.length = election.length := by
  intro election
  induction election with
  | nil =>
    intro firsts h
    simp only [firstChoices] at h
    obtain rfl := Option.some.inj h
    rfl
  | cons v rest ih =>
    intro firsts h
    cases v with
    | nil => simp [firstChoices] at h
    | cons c vt =>
      simp only [firstChoices] at h
      cases hr : firstChoices rest with
      | none => rw [hr] at h; simp at h
      | some l =>
        rw [hr] at h
        have h2 : c :: l = firsts := by simpa using h
        rw [← h2]
        simp [ih hr]

theorem le_pluralityMax {firsts : List Nat} {x : Nat} (hx : x ∈ firsts) :
    firsts.count x ≤ pluralityMax firsts :=
  le_natMax (List.mem_map_of_mem _ (mem_insertionOrder.mpr hx))

theorem pluralityMax_attained {firsts : List Nat} (hne : firsts ≠ []) :
    ∃ x ∈ firsts, firsts.count x = pluralityMax firsts := by
  obtain ⟨f0, ft, rfl⟩ := List.exists_cons_of_ne_nil hne
  have hkeys : f0 ∈ insertionOrder (f0 :: ft) :=
    mem_insertionOrder.mpr (List.mem_cons_self f0 ft)
  have hmapne : (insertionOrder (f0 :: ft)).map (fun d => (f0 :: ft).count d) ≠ [] := by
    intro hmap
    rw [List.map_eq_nil_iff] at hmap
    rw [hmap] at hkeys
    cases hkeys
  have hmem := natMax_mem hmapne
  obtain ⟨x, hxk, hxc⟩ := List.mem_map.mp hmem
  exact ⟨x, mem_insertionOrder.mp hxk, hxc⟩

theorem mem_pluralityWinners {firsts : List Nat} {x : Nat} :
    x ∈ pluralityWinners firsts ↔ x ∈ firsts ∧ firsts.count x = pluralityMax firsts := by
  simp [pluralityWinners, List.mem_filter, mem_insertionOrder]

theorem nodup_pluralityWinners (firsts : List Nat) : (pluralityWinners firsts).Nodup :=
  List.Nodup.filter _ (nodup_insertionOrder firsts)

theorem pluralityWinners_ne_nil {firsts : List Nat} (hne : firsts ≠ []) :
    pluralityWinners firsts ≠ [] := by
  obtain ⟨x, hx, hxc⟩ := pluralityMax_attained hne
  exact List.ne_nil_of_mem (mem_pluralityWinners.mpr ⟨hx, hxc⟩)

theorem eq_singleton_of_nodup {l : List Nat} {w : Nat} (hnd : l.Nodup)
    (hw : w ∈ l) (hall : ∀ c ∈ l, c = w) : l = [w] := by
  cases l with
  | nil => cases hw
  | cons a t =>
    obtain rfl := hall a (List.mem_cons_self a t)
    have ht : t = [] := by
      rw [List.eq_nil_iff_forall_not_mem]
      intro c hct
      obtain rfl := hall c (List.mem_cons_of_mem a hct)
      exact (List.nodup_cons.mp hnd).1 hct
    rw [ht]

theorem pluralityWinners_eq_singleton {firsts : List Nat} {w : Nat} (hne : firsts ≠ []) :
    pluralityWinners firsts = [w] ↔
      w ∈ firsts ∧ ∀ c ∈ firsts, c ≠ w → firsts.count c < firsts.count w := by
  constructor
  · intro h
    have hwmem : w ∈ pluralityWinners firsts := by rw [h]; exact List.mem_singleton.mpr rfl
    obtain ⟨hwf, hwmax⟩ := mem_pluralityWinners.mp hwmem
    refine ⟨hwf, fun c hc hcw => ?_⟩
    have hle : firsts.count c ≤ pluralityMax firsts := le_pluralityMax hc
    rcases Nat.lt_or_ge (firsts.count c) (pluralityMax firsts) with hlt | hge
    · omega
    · exfalso
      have hceq : firsts.count c = pluralityMax firsts := by omega
      have : c ∈ pluralityWinners firsts := mem_pluralityWinners.mpr ⟨hc, hceq⟩
      rw [h] at this
      exact hcw (List.mem_singleton.mp this)
  · rintro ⟨hwf, hstrict⟩
    obtain ⟨x, hx, hxc⟩ := pluralityMax_attained hne
    have hxw : x = w := by
      by_contra hxw
      have := hstrict x hx hxw
      have h2 := le_pluralityMax hwf
      omega
    subst hxw
    have hwin : x ∈ pluralityWinners firsts := mem_pluralityWinners.mpr ⟨hx, hxc⟩
    refine eq_singleton_of_nodup (nodup_pluralityWinners firsts) hwin (fun c hc => ?_)
    obtain ⟨hcf, hcmax⟩ := mem_pluralityWinners.mp hc
    by_contra hcw
    have := hstrict c hcf hcw
    omega

theorem one_lt_pluralityWinners_length {firsts : List Nat} (hne : firsts ≠ []) :
    1 < (pluralityWinners firsts).length ↔
      ∀ w ∈ firsts, ∃ c ∈ firsts, c ≠ w ∧ firsts.count w ≤ firsts.count c := by
  constructor
  · intro h w hw
    obtain ⟨x, hx, y, hy, hxy⟩ : ∃ x ∈ pluralityWinners firsts,
        ∃ y ∈ pluralityWinners firsts, x ≠ y := by
      cases hl : pluralityWinners firsts with
      | nil => rw [hl] at h; simp at h
      | cons a t =>
        cases t with
        | nil => rw [hl] at h; simp at h
        | cons b t2 =>
          have hnd : (a :: b :: t2).Nodup := hl ▸ nodup_pluralityWinners firsts
          refine ⟨a, List.mem_cons_self a (b :: t2), b,
            List.mem_cons_of_mem a (List.mem_cons_self b t2), fun hab => ?_⟩
          exact (List.nodup_cons.mp hnd).1 (hab ▸ List.mem_cons_self b t2)
    obtain ⟨hxf, hxmax⟩ := mem_pluralityWinners.mp hx
    obtain ⟨hyf, hymax⟩ := mem_pluralityWinners.mp hy
    by_cases hxw : x = w
    · subst hxw
      exact ⟨y, hyf, fun h => hxy h.symm, by
        have := le_pluralityMax hxf
        omega⟩
    · exact ⟨x, hxf, hxw, by
        have := le_pluralityMax hw
        omega⟩
  · intro htie
    by_contra hlen
    have hwne := pluralityWinners_ne_nil hne
    obtain ⟨a, t, hl⟩ := List.exists_cons_of_ne_nil hwne
    have ht : t = [] := by
      cases t with
      | nil => rfl
      | cons b t2 => rw [hl] at hlen; simp [List.length_cons] at hlen
    rw [ht] at hl
    obtain ⟨haf, hamax⟩ := mem_pluralityWinners.mp
      (hl ▸ List.mem_singleton.mpr rfl)
    obtain ⟨c, hcf, hca, hcge⟩ := htie a haf
    have hle : firsts.count c ≤ pluralityMax firsts := le_pluralityMax hcf
    have hceq : firsts.count c = pluralityMax firsts := by omega
    have : c ∈ pluralityWinners firsts := mem_pluralityWinners.mpr ⟨hcf, hceq⟩
    rw [hl] at this
    exact hca (List.mem_singleton.mp this)

theorem head?_eq_some_of_length_le_one {l : List Nat} {w : Nat} (h : l.length ≤ 1) :
    l.head? = some w ↔ l = [w] := by
  cases l with
  | nil => simp
  | cons a t =>
    cases t with
    | nil => simp
    | cons b t2 => simp [List.length_cons] at h

/-! ### Lemmas about the pairwise preference counter -/

theorem findIdx?_some_of_mem {v : List Nat} {c : Nat} (hc : c ∈ v) :
    ∃ i, v.findIdx? (fun x => decide (x = c)) = some i := by
  have hany : v.any (fun x => decide (x = c)) = true :=
    List.any_eq_true.mpr ⟨c, hc, by simp⟩
  have hsome : (v.findIdx? (fun x => decide (x = c))).isSome = true := by
    rw [List.findIdx?_isSome, hany]
  exact Option.isSome_iff_exists.mp hsome

theorem findIdx?_none_of_not_mem {v : List Nat} {c : Nat} (hc : c ∉ v) :
    v.findIdx? (fun x => decide (x = c)) = none :=
  List.findIdx?_eq_none_iff.mpr (fun x hx => by
    simp only [decide_eq_false_iff_not]
    intro hxc
    exact hc (hxc ▸ hx))

theorem votePref_error_of_missing {v : List Nat} {a b : Nat}
    (h : a ∉ v ∨ b ∉ v) :
    votePref a b v = Except.error "ValueError: sequence index: x not in sequence" := by
  rcases h with ha | hb
  · simp [votePref, findIdx?_none_of_not_mem ha]
  · cases hia : v.findIdx? (fun x => decide (x = a)) with
    | none => simp [votePref, hia]
    | some i => simp [votePref, hia, findIdx?_none_of_not_mem hb]

theorem votePref_ok_of_mem {v : List Nat} {a b : Nat} (ha : a ∈ v) (hb : b ∈ v) :
    ∃ p, votePref a b v = Except.ok p ∧ (p = a ∨ p = b) := by
  obtain ⟨i1, hi1⟩ := findIdx?_some_of_mem ha
  obtain ⟨i2, hi2⟩ := findIdx?_some_of_mem hb
  refine ⟨if i1 < i2 then a else b, by simp [votePref, hi1, hi2], ?_⟩
  by_cases h : i1 < i2
  · exact Or.inl (by simp [h])
  · exact Or.inr (by simp [h])

theorem votePref_ok_requires {v : List Nat} {a b : Nat} {p : Nat}
    (h : votePref a b v = Except.ok p) : a ∈ v ∧ b ∈ v := by
  by_cases ha : a ∈ v
  · by_cases hb : b ∈ v
    · exact ⟨ha, hb⟩
    · rw [votePref_error_of_missing (Or.inr hb)] at h; cases h
  · rw [votePref_error_of_missing (Or.inl ha)] at h; cases h

theorem count_pair_eq_length {l : List Nat} {a b : Nat} (hab : a ≠ b)
    (hall : ∀ p ∈ l, p = a ∨ p = b) : l.count a + l.count b = l.length := by
  induction l with
  | nil => simp
  | cons p l ih =>
    have hrest := ih (fun q hq => hall q (List.mem_cons_of_mem p hq))
    rcases hall p (List.mem_cons_self p l) with rfl | rfl
    · rw [List.count_cons_self, List.count_cons_of_ne (fun h => hab h.symm)]
      simp only [List.length_cons]
      omega
    · rw [List.count_cons_self, List.count_cons_of_ne hab]
      simp only [List.length_cons]
      omega

theorem majority_preferences_ok_of_mem {election : List (List Nat)} {a b : Nat}
    (hmem : ∀ v ∈ election, a ∈ v ∧ b ∈ v) :
    ∃ l, majority_preferences election a b = Except.ok l ∧
      l.length = election.length ∧ ∀ p ∈ l, p = a ∨ p = b := by
  induction election with
  | nil => exact ⟨[], rfl, rfl, by simp⟩
  | cons v rest ih =>
    obtain ⟨hva, hvb⟩ := hmem v (List.mem_cons_self v rest)
    obtain ⟨p, hp, hpor⟩ := votePref_ok_of_mem hva hvb
    obtain ⟨l, hl, hlen, hall⟩ := ih (fun u hu => hmem u (List.mem_cons_of_mem v hu))
    refine ⟨p :: l, ?_, by simp [hlen], ?_⟩
    · simp [majority_preferences, hp, hl]
    · intro q hq
      rcases List.mem_cons.mp hq with rfl | hq
      · exact hpor
      · exact hall q hq

theorem majority_preferences_error_of_missing {election : List (List Nat)} {a b : Nat}
    (h : ∃ v ∈ election, a ∉ v ∨ b ∉ v) :
    majority_preferences election a b =
      Except.error "ValueError: sequence index: x not in sequence" := by
  induction election with
  | nil => obtain ⟨v, hv, _⟩ := h; cases hv
  | cons v rest ih =>
    obtain ⟨u, hu, humiss⟩ := h
    rcases List.mem_cons.mp hu with rfl | hu
    · rw [show majority_preferences (u :: rest) a b = _ from rfl]
      simp [majority_preferences, votePref_error_of_missing humiss]
    · have hrest := ih ⟨u, hu, humiss⟩
      cases hv : votePref a b v with
      | ok p => simp [majority_preferences, hv, hrest]
      | error e =>
        have he : e = "ValueError: sequence index: x not in sequence" := by
          by_cases ha : a ∈ v
          · by_cases hb : b ∈ v
            · obtain ⟨p, hp, _⟩ := votePref_ok_of_mem ha hb
              rw [hp] at hv; cases hv
            · rw [votePref_error_of_missing (Or.inr hb)] at hv
              exact (Except.error.inj hv).symm
          · rw [votePref_error_of_missing (Or.inl ha)] at hv
            exact (Except.error.inj hv).symm
        subst he
        simp [majority_preferences, hv]

theorem majority_preferences_ok_requires {election : List (List Nat)} {a b : Nat}
    {l : List Nat} (h : majority_preferences election a b = Except.ok l) :
    ∀ v ∈ election, a ∈ v ∧ b ∈ v := by
  intro v hv
  by_contra hmiss
  rw [majority_preferences_error_of_missing ⟨v, hv, by tauto⟩] at h
  cases h

theorem insertionOrderAux_replicate {a : Nat} :
    ∀ (m : Nat) (seen : List Nat), a ∈ seen →
    insertionOrderAux seen (List.replicate m a) = [] := by
  intro m
  induction m with
  | zero => intro seen _; rfl
  | succ m ih =>
    intro seen ha
    simp only [List.replicate, insertionOrderAux, if_pos ha]
    exact ih seen ha

theorem insertionOrder_replicate_succ (n : Nat) (a : Nat) :
    insertionOrder (List.replicate (n + 1) a) = [a] := by
  simp only [insertionOrder, List.replicate, insertionOrderAux]
  rw [if_neg (List.not_mem_nil a)]
  rw [insertionOrderAux_replicate n (a :: []) (List.mem_cons_self a [])]

/-! ### Claim theorems -/

/-- C1 (code bug witnessed): on the valid single-vote election `[[5]]` the
claim requires `irv` to return the sole remaining candidate `5`, but the
source raises `TypeError`: the loop body never runs, so `candidates` is
still a `frozenset`, and `candidates[0]` is not a valid frozenset
operation. -/
theorem irv_singleton_raises :
    irv [[5]] = Except.error "TypeError: frozenset object is not subscriptable" := rfl

/-- C2 (code bug witnessed): on the valid single-vote election `[[7]]` the
claim requires `rcv` to return the elimination engine final outcome `7`,
but the source raises `TypeError` exactly as `irv` does, because the loop
body never runs and the frozenset is indexed. -/
theorem rcv_singleton_raises :
    rcv [[7]] = Except.error "TypeError: frozenset object is not subscriptable" := rfl

/-- C6 (code bug witnessed): on the valid election `[[3],[3]]` neither
`irv` nor `rcv` returns a candidate or the tie result: both raise
`TypeError`, so the claimed return-type contract fails. -/
theorem resolvers_raise_on_singleton_election :
    irv [[3],[3]] = Except.error "TypeError: frozenset object is not subscriptable" ∧
    rcv [[3],[3]] = Except.error "TypeError: frozenset object is not subscriptable" :=
  ⟨rfl, rfl⟩

/-- C4 counterexample: at `num_votes = 2` the threshold is `1`, which is
not strictly greater than half of the votes cast (neither in the exact
sense `2 * threshold > 2` nor in the floor-division sense
`threshold > 2 / 2`). -/
theorem majorityThreshold_not_above_half_at_two :
    majorityThreshold 2 = 1 ∧ ¬ (2 < 2 * majorityThreshold 2) ∧
    ¬ (2 / 2 < majorityThreshold 2) := by decide

/-- C4 (amended): the threshold `rcv` compares scores against equals
`ceil(num_votes / 2)`; it is strictly greater than half of the votes cast
exactly when `num_votes` is odd, and for even `num_votes` it equals exactly
half. -/
theorem majorityThreshold_eq_ceil (n : Nat) :
    majorityThreshold n = (n + 1) / 2 ∧ (n < 2 * majorityThreshold n ↔ n % 2 = 1) := by
  by_cases h : n % 2 = 0 <;> simp [majorityThreshold, h] <;> omega

/-- C7: for every valid election, while the active set is non-empty a
minimum-scoring candidate exists, every elimination round strictly shrinks
the active set, and both the `irv` loop and the `rcv` loop run to
completion within `|active|` rounds (the fuel `active.length` — which is
`|CandidateSet|` at the call sites — is never exhausted). -/
theorem elimination_loop_terminates (election : List (List Nat)) (active : List Nat)
    (hne : active ≠ [])
    (hval : validRunF election active.length active = true) :
    (∃ c ∈ active, score election active c = losingScore election active ∧
      ∀ d ∈ active, score election active c ≤ score election active d) ∧
    (1 < active.length → (eliminate election active).length < active.length) ∧
    (∃ final, elimLoopF election active.length active = some final) ∧
    (∀ th, ∃ r, rcvLoopF election th active.length active = some r) := by
  refine ⟨?_, fun _ => eliminate_length_lt election hne,
    elimLoopF_some active.length active (le_refl _),
    fun th => rcvLoopF_some th active.length active (le_refl _)⟩
  obtain ⟨c, hc, hsc⟩ := losingScore_attained election hne
  refine ⟨c, hc, hsc, fun d hd => ?_⟩
  rw [hsc]
  exact losingScore_le election hd

/-- Witness for C7 at the two-candidate election `[[0,1],[1,0]]`. -/
theorem elimination_loop_terminates_witness :
    (([0, 1] : List Nat) ≠ [] ∧
      validRunF [[0, 1], [1, 0]] ([0, 1] : List Nat).length [0, 1] = true) ∧
    ((∃ c ∈ ([0, 1] : List Nat),
        score [[0, 1], [1, 0]] [0, 1] c = losingScore [[0, 1], [1, 0]] [0, 1] ∧
        ∀ d ∈ ([0, 1] : List Nat),
          score [[0, 1], [1, 0]] [0, 1] c ≤ score [[0, 1], [1, 0]] [0, 1] d) ∧
      (1 < ([0, 1] : List Nat).length →
        (eliminate [[0, 1], [1, 0]] [0, 1]).length < ([0, 1] : List Nat).length) ∧
      (∃ final, elimLoopF [[0, 1], [1, 0]] ([0, 1] : List Nat).length [0, 1] = some final) ∧
      (∀ th, ∃ r, rcvLoopF [[0, 1], [1, 0]] th ([0, 1] : List Nat).length [0, 1] = some r)) :=
  ⟨⟨by decide, by decide⟩,
    elimination_loop_terminates [[0, 1], [1, 0]] [0, 1] (by decide) (by decide)⟩

/-- C8: for two distinct candidates both present in every vote, each vote
contributes its earlier-ranked one of the two, so the two counts in the
returned counter sum to the number of votes. -/
theorem majority_preferences_sum (election : List (List Nat)) (a b : Nat)
    (hab : a ≠ b) (hmem : ∀ v ∈ election, a ∈ v ∧ b ∈ v) :
    ∃ l, majority_preferences election a b = Except.ok l ∧
      l.count a + l.count b = election.length := by
  obtain ⟨l, hl, hlen, hall⟩ := majority_preferences_ok_of_mem hmem
  exact ⟨l, hl, by rw [count_pair_eq_length hab hall, hlen]⟩

/-- Witness for C8 at `[[0,1],[1,0]]` with candidates `0` and `1`. -/
theorem majority_preferences_sum_witness :
    ((0 : Nat) ≠ 1 ∧ ∀ v ∈ ([[0, 1], [1, 0]] : List (List Nat)), 0 ∈ v ∧ 1 ∈ v) ∧
    (∃ l, majority_preferences [[0, 1], [1, 0]] 0 1 = Except.ok l ∧
      l.count 0 + l.count 1 = ([[0, 1], [1, 0]] : List (List Nat)).length) :=
  ⟨⟨by decide, by decide⟩,
    majority_preferences_sum [[0, 1], [1, 0]] 0 1 (by decide) (by decide)⟩

/-- C9: if any vote lacks one of the two queried candidates,
`majority_preferences` fails with the distinct missing-element `ValueError`
of `operator.indexOf` instead of returning a defaulted count, and it
returns normally only when both candidates appear in every vote. -/
theorem majority_preferences_requires_both (election : List (List Nat)) (a b : Nat) :
    ((∃ v ∈ election, a ∉ v ∨ b ∉ v) →
      majority_preferences election a b =
        Except.error "ValueError: sequence index: x not in sequence") ∧
    (∀ l, majority_preferences election a b = Except.ok l →
      ∀ v ∈ election, a ∈ v ∧ b ∈ v) :=
  ⟨fun h => majority_preferences_error_of_missing h,
    fun _ hl => majority_preferences_ok_requires hl⟩

/-- Witness for C9 at `[[0],[0]]` with queried candidates `0` and `5`. -/
theorem majority_preferences_requires_both_witness :
    (∃ v ∈ ([[0], [0]] : List (List Nat)), (0 : Nat) ∉ v ∨ (5 : Nat) ∉ v) ∧
    majority_preferences [[0], [0]] 0 5 =
      Except.error "ValueError: sequence index: x not in sequence" :=
  ⟨by decide, (majority_preferences_requires_both [[0], [0]] 0 5).1 (by decide)⟩

theorem majority_preferences_all_first {election : List (List Nat)} {a b : Nat}
    (hrank : ∀ v ∈ election, ∃ i j, v.findIdx? (fun x => decide (x = a)) = some i ∧
      v.findIdx? (fun x => decide (x = b)) = some j ∧ i < j) :
    majority_preferences election a b = Except.ok (List.replicate election.length a) := by
  induction election with
  | nil => rfl
  | cons v rest ih =>
    obtain ⟨i, j, hi, hj, hij⟩ := hrank v (List.mem_cons_self v rest)
    have hv : votePref a b v = Except.ok a := by
      simp [votePref, hi, hj, if_pos hij]
    have hr := ih (fun u hu => hrank u (List.mem_cons_of_mem v hu))
    simp [majority_preferences, hv, hr, List.replicate_succ]

/-- C10: when every vote ranks `a` strictly earlier than `b`, the returned
counter is the single-entry mapping sending `a` to the number of votes: its
key list is exactly `[a]`, `b` has no entry (its count is `0`, observable
only through the counter's default lookup), and more generally every key of
the counter was preferred by at least one voter. -/
theorem majority_preferences_single_key (election : List (List Nat)) (a b : Nat)
    (hne : election ≠ []) (hab : a ≠ b)
    (hrank : ∀ v ∈ election, ∃ i j, v.findIdx? (fun x => decide (x = a)) = some i ∧
      v.findIdx? (fun x => decide (x = b)) = some j ∧ i < j) :
    majority_preferences election a b = Except.ok (List.replicate election.length a) ∧
    insertionOrder (List.replicate election.length a) = [a] ∧
    (List.replicate election.length a).count a = election.length ∧
    b ∉ insertionOrder (List.replicate election.length a) ∧
    ∀ k ∈ insertionOrder (List.replicate election.length a),
      k ∈ List.replicate election.length a := by
  obtain ⟨v, rest, rfl⟩ := List.exists_cons_of_ne_nil hne
  refine ⟨majority_preferences_all_first hrank, ?_, ?_, ?_,
    fun k hk => mem_insertionOrder.mp hk⟩
  · simp only [List.length_cons]
    exact insertionOrder_replicate_succ rest.length a
  · simp
  · intro hb
    have hbmem := mem_insertionOrder.mp hb
    rw [List.mem_replicate] at hbmem
    exact hab hbmem.2.symm

/-- Witness for C10 at the one-vote election `[[0,1]]`. -/
theorem majority_preferences_single_key_witness :
    (([[0, 1]] : List (List Nat)) ≠ [] ∧ (0 : Nat) ≠ 1) ∧
    (majority_preferences [[0, 1]] 0 1 =
        Except.ok (List.replicate ([[0, 1]] : List (List Nat)).length 0) ∧
      insertionOrder (List.replicate ([[0, 1]] : List (List Nat)).length 0) = [0] ∧
      (List.replicate ([[0, 1]] : List (List Nat)).length 0).count 0 =
        ([[0, 1]] : List (List Nat)).length ∧
      (1 : Nat) ∉ insertionOrder (List.replicate ([[0, 1]] : List (List Nat)).length 0) ∧
      ∀ k ∈ insertionOrder (List.replicate ([[0, 1]] : List (List Nat)).length 0),
        k ∈ List.replicate ([[0, 1]] : List (List Nat)).length 0) :=
  ⟨⟨by decide, by decide⟩,
    majority_preferences_single_key [[0, 1]] 0 1 (by decide) (by decide)
      (by
        intro v hv
        simp only [List.mem_singleton] at hv
        subst hv
        exact ⟨0, 1, by decide, by decide, by decide⟩)⟩

/-- C3: for every non-empty election all of whose votes are non-empty
(`firstChoices` succeeds), `plurality` returns candidate `w` exactly when
`w` is a first choice whose first-choice count strictly exceeds every other
first-choice count, and returns the tie result exactly when every first
choice is matched or beaten by some other first choice — never an
arbitrary pick among tied leaders. -/
theorem plurality_correct (election : List (List Nat)) (firsts : List Nat)
    (hf : firstChoices election = some firsts) (hne : election ≠ []) :
    (∀ w, plurality election = Except.ok (some w) ↔
      w ∈ firsts ∧ ∀ c ∈ firsts, c ≠ w → firsts.count c < firsts.count w) ∧
    (plurality election = Except.ok none ↔
      ∀ w ∈ firsts, ∃ c ∈ firsts, c ≠ w ∧ firsts.count w ≤ firsts.count c) := by
  have hfne : firsts ≠ [] := by
    intro h0
    apply hne
    have hlen := firstChoices_length hf
    rw [h0] at hlen
    simp only [List.length_nil] at hlen
    exact List.length_eq_zero.mp hlen.symm
  obtain ⟨f0, ft, rfl⟩ := List.exists_cons_of_ne_nil hfne
  have hpl : plurality election =
      if 1 < (pluralityWinners (f0 :: ft)).length then Except.ok none
      else Except.ok (pluralityWinners (f0 :: ft)).head? := by
    simp [plurality, hf]
  by_cases hcase : 1 < (pluralityWinners (f0 :: ft)).length
  · rw [hpl, if_pos hcase]
    constructor
    · intro w
      constructor
      · intro h
        simp at h
      · intro hstrict
        exfalso
        have hsing := (pluralityWinners_eq_singleton hfne).mpr hstrict
        rw [hsing] at hcase
        simp at hcase
    · constructor
      · intro _
        exact (one_lt_pluralityWinners_length hfne).mp hcase
      · intro _
        rfl
  · rw [hpl, if_neg hcase]
    have hlenle : (pluralityWinners (f0 :: ft)).length ≤ 1 := by omega
    constructor
    · intro w
      have hiff : (Except.ok (pluralityWinners (f0 :: ft)).head? :
            Except String (Option Nat)) =
          Except.ok (some w) ↔ (pluralityWinners (f0 :: ft)).head? = some w := by
        simp
      rw [hiff, head?_eq_some_of_length_le_one hlenle]
      exact pluralityWinners_eq_singleton hfne
    · constructor
      · intro h
        exfalso
        have hnone : (pluralityWinners (f0 :: ft)).head? = none := by
          simpa using h
        cases hl : pluralityWinners (f0 :: ft) with
        | nil => exact pluralityWinners_ne_nil hfne hl
        | cons x t =>
          rw [hl] at hnone
          simp at hnone
      · intro htie
        exfalso
        have := (one_lt_pluralityWinners_length hfne).mpr htie
        omega

/-- Witness for C3 at the election `[[0,2],[1,2],[1,0]]`, whose first
choices are `[0,1,1]`. -/
theorem plurality_correct_witness :
    (firstChoices [[0, 2], [1, 2], [1, 0]] = some [0, 1, 1] ∧
      ([[0, 2], [1, 2], [1, 0]] : List (List Nat)) ≠ []) ∧
    ((∀ w, plurality [[0, 2], [1, 2], [1, 0]] = Except.ok (some w) ↔
        w ∈ ([0, 1, 1] : List Nat) ∧ ∀ c ∈ ([0, 1, 1] : List Nat), c ≠ w →
          ([0, 1, 1] : List Nat).count c < ([0, 1, 1] : List Nat).count w) ∧
      (plurality [[0, 2], [1, 2], [1, 0]] = Except.ok none ↔
        ∀ w ∈ ([0, 1, 1] : List Nat), ∃ c ∈ ([0, 1, 1] : List Nat), c ≠ w ∧
          ([0, 1, 1] : List Nat).count w ≤ ([0, 1, 1] : List Nat).count c)) :=
  ⟨⟨by decide, by decide⟩,
    plurality_correct [[0, 2], [1, 2], [1, 0]] [0, 1, 1] (by decide) (by decide)⟩

/-- C5: on a valid election, if `rcv` exits early through the majority
check — returning winner `w` from the round whose active set is `Aexit`,
before elimination has reduced the active set to at most one candidate —
and every elimination round from that point on removes exactly one
candidate, then `irv` returns the same winner `w`.  (Without the
single-elimination proviso this fails: a round may remove several
candidates tied at the minimum, including `w` itself.) -/
theorem rcv_early_exit_agrees_with_irv (election : List (List Nat)) (w : Nat)
    (Aexit : List Nat)
    (hval : validRunF election (candidates_for_election election).length
      (candidates_for_election election) = true)
    (hexit : rcvEarlyWinnerF election (majorityThreshold election.length)
      (candidates_for_election election).length
      (candidates_for_election election) = some (w, Aexit))
    (hsingle : singleElimF election Aexit.length Aexit = true) :
    rcv election = Except.ok (some w) ∧ irv election = Except.ok (some w) := by
  have hC1 : 1 < (candidates_for_election election).length :=
    rcvEarlyWinnerF_active hexit
  have hrcv : rcv election = Except.ok (some w) := by
    have hloop := rcvEarly_rcvLoop election (majorityThreshold election.length)
      _ _ hexit
    simp [rcv, hC1, hloop]
  refine ⟨hrcv, ?_⟩
  obtain ⟨fuel2, h1, h2, h3, h4, h5, cnt, hmc, hth⟩ :=
    rcvEarly_reach (candidates_for_election election).length
      (candidates_for_election election) (le_refl _)
      (show (candidates_for_election election).Nodup from
        nodup_insertionOrder election.flatten) hval hexit
  have hsingle2 : singleElimF election fuel2 Aexit = true := by
    rw [← singleElimF_fuel Aexit.length fuel2 Aexit (le_refl _) h1]
    exact hsingle
  obtain ⟨hwmem, hcnt, _⟩ := mostCommonFst_spec hmc
  have hwA : w ∈ Aexit := tops_subset_active hwmem
  have hscore : majorityThreshold election.length ≤ score election Aexit w := by
    rw [hcnt] at hth
    exact hth
  have hfin := elimLoop_majority
    (length_le_two_mul_majorityThreshold election.length) fuel2 Aexit h1 h2 h3
    hsingle2 hwA hscore
  rw [hfin] at h5
  simp [irv, hC1, h5]

/-- Witness for C5 at the election `[[0,1],[0,1],[1,0]]`: threshold `2`,
first-round early exit with winner `0` from the active set `[0,1]`, and the
single subsequent elimination removes exactly one candidate. -/
theorem rcv_early_exit_agrees_with_irv_witness :
    (validRunF [[0, 1], [0, 1], [1, 0]]
        (candidates_for_election [[0, 1], [0, 1], [1, 0]]).length
        (candidates_for_election [[0, 1], [0, 1], [1, 0]]) = true ∧
      rcvEarlyWinnerF [[0, 1], [0, 1], [1, 0]]
        (majorityThreshold ([[0, 1], [0, 1], [1, 0]] : List (List Nat)).length)
        (candidates_for_election [[0, 1], [0, 1], [1, 0]]).length
        (candidates_for_election [[0, 1], [0, 1], [1, 0]]) = some (0, [0, 1]) ∧
      singleElimF [[0, 1], [0, 1], [1, 0]] ([0, 1] : List Nat).length [0, 1] = true) ∧
    rcv [[0, 1], [0, 1], [1, 0]] = Except.ok (some 0) ∧
    irv [[0, 1], [0, 1], [1, 0]] = Except.ok (some 0) :=
  ⟨⟨by decide, by decide, by decide⟩,
    rcv_early_exit_agrees_with_irv [[0, 1], [0, 1], [1, 0]] 0 [0, 1]
      (by decide) (by decide) (by decide)⟩

/-- Witness for the amended C4 at `num_votes = 3`. -/
theorem majorityThreshold_eq_ceil_witness :
    majorityThreshold 3 = (3 + 1) / 2 ∧ (3 < 2 * majorityThreshold 3 ↔ 3 % 2 = 1) :=
  majorityThreshold_eq_ceil 3
